import Mathlib

/-
Shallow embedding of src/cache_model.py.

Conventions of the embedding:
- Python nonnegative byte addresses and line ids are `Nat`; Python `//` on
  nonnegative ints is `Nat` division.
- Penalty counters are `Int` (Python ints), so that nonnegativity assumptions
  of the spec are genuine hypotheses rather than artifacts of the type.
- Averages computed with Python `/` are `Rat`; the concrete cases the claims
  exercise stay in the exactly-representable range where float and rational
  arithmetic agree.
- `random.randrange(0, N, step)` can return exactly the values `k * step`
  with `k < ceil(N / step)` (`len(range(0, N, step)) = ceil(N / step)`). We
  model one draw as consuming one value `d` from an ambient stream of
  arbitrary naturals and producing `d % ceil(N / step) * step`, which
  realizes exactly that set of outcomes.
- A Python exception (`assert`, `ZeroDivisionError`) is `none` / a dedicated
  outcome constructor.
-/

/-- Constant from the source: `KB = 1024`. -/
def KB : ℕ := 1024

/-- Constant from the source: `MB = 1024 * KB`. -/
def MB : ℕ := 1024 * KB

/-- Constant from the source: `GB = 1024 * MB`. -/
def GB : ℕ := 1024 * MB

/-- Constant from the source: `ARRAY_SIZE = 2 * GB`. -/
def ARRAY_SIZE : ℕ := 2 * GB

/-- Constant from the source: `MAX_ADDRESSES = 1_000_000`. -/
def MAX_ADDRESSES : ℕ := 1000000

/-- A memory hierarchy state: either a `RamModel` (fields `access_penalty`,
`total_penalty`) or a `CacheModel` (config fields `n_lines`, `line_size`,
`hit_penalty`, state fields `cached_lines_queue`, `cached_lines_set`,
`total_penalty`, and the owned `next_memory`). The queue is oldest-first, as
in the source where `pop(0)` removes the oldest and `append` adds newest. -/
inductive MemModel : Type where
  | ram (access_penalty : ℤ) (total_penalty : ℤ) : MemModel
  | cache (n_lines line_size : ℕ) (hit_penalty : ℤ)
      (cached_lines_queue : List ℕ) (cached_lines_set : Finset ℕ)
      (total_penalty : ℤ) (next_memory : MemModel) : MemModel

/-- Method `CacheModel._add_to_cache`, acting on the `(queue, set)` state pair:
if `line_id` is resident, return unchanged; otherwise, if
`len(queue) == n_lines`, pop the front of the queue and remove it from the
set; then append `line_id` to the back of the queue and insert it into the
set. The `[]` branch of the inner match is unreachable whenever
`n_lines ≥ 1` (the constructor asserts `n_lines` is nonzero; in Python,
`pop(0)` on an empty list would raise). -/
def add_to_cache (n_lines : ℕ) (queue : List ℕ) (set : Finset ℕ)
    (line_id : ℕ) : List ℕ × Finset ℕ :=
  if line_id ∈ set then (queue, set)
  else
    let popped : List ℕ × Finset ℕ :=
      if queue.length = n_lines then
        match queue with
        | [] => ([], set)
        | line_to_remove :: rest => (rest, set.erase line_to_remove)
      else (queue, set)
    (popped.1 ++ [line_id], insert line_id popped.2)

/-- Method `perform_access` of both model kinds. `RamModel.perform_access` adds
`access_penalty` to `total_penalty`. `CacheModel.perform_access` computes
`line_id = address // line_size`, then `_increment_penalties` (on a hit add
`hit_penalty` to this level's counter, on a miss forward the original
`address` to `next_memory`), then `_add_to_cache line_id`. -/
def perform_access : MemModel → ℕ → MemModel
  | .ram access_penalty total_penalty, _ =>
      .ram access_penalty (total_penalty + access_penalty)
  | .cache n_lines line_size hit_penalty queue set total_penalty next, address =>
      let line_id := address / line_size
      let total_penalty := if line_id ∈ set then total_penalty + hit_penalty
        else total_penalty
      let next := if line_id ∈ set then next else perform_access next address
      let qs := add_to_cache n_lines queue set line_id
      .cache n_lines line_size hit_penalty qs.1 qs.2 total_penalty next

/-- Method `get_total_penalty`: a `RamModel` returns its counter; a `CacheModel`
returns `next_memory.get_total_penalty() + total_penalty`. -/
def get_total_penalty : MemModel → ℤ
  | .ram _ total_penalty => total_penalty
  | .cache _ _ _ _ _ total_penalty next => get_total_penalty next + total_penalty

/-- Top-level `perform_accesses(model, addresses)`: perform every access in
order, then read `get_total_penalty()` once. -/
def perform_accesses (model : MemModel) (addresses : List ℕ) : ℤ :=
  get_total_penalty (addresses.foldl perform_access model)

/-- Projection used to observe the FIFO queue of the root cache level. -/
def cached_queue : MemModel → List ℕ
  | .ram _ _ => []
  | .cache _ _ _ queue _ _ _ => queue

/-- Fresh `CacheModel.__init__` state: empty queue, empty set, zero penalty
(the constructor also asserts `n_lines` and `line_size` are nonzero, which
theorems carry as hypotheses). -/
def cache_init (n_lines line_size : ℕ) (hit_penalty : ℤ) (next : MemModel) :
    MemModel :=
  .cache n_lines line_size hit_penalty [] ∅ 0 next

/-- Structural invariant of one cache level, as stated in the spec, imposed
at every level of the hierarchy: queue length equals set cardinality, both
at most `n_lines`, the queue has no duplicates and the set is exactly the
set of queue elements. -/
def CacheInv : MemModel → Prop
  | .ram _ _ => True
  | .cache n_lines _ _ queue set _ next =>
      queue.length = set.card ∧ queue.length ≤ n_lines ∧ queue.Nodup ∧
        (∀ x, x ∈ set ↔ x ∈ queue) ∧ CacheInv next

/-- Configuration well-formedness: every cache level in the chain has
`n_lines ≥ 1` and `line_size ≥ 1`, mirroring the constructor asserts. -/
def WFConfig : MemModel → Prop
  | .ram _ _ => True
  | .cache n_lines line_size _ _ _ _ next =>
      1 ≤ n_lines ∧ 1 ≤ line_size ∧ WFConfig next

/-- Nonnegative penalty configuration: `hit_penalty ≥ 0` at every cache
level and `access_penalty ≥ 0` at the terminal store. -/
def NonnegPenalties : MemModel → Prop
  | .ram access_penalty _ => 0 ≤ access_penalty
  | .cache _ _ hit_penalty _ _ _ next => 0 ≤ hit_penalty ∧ NonnegPenalties next

/-- Outcome of the convergence estimator `mean`: `noData` is the
`assert n, "no data"` failure, `converged v t` is the early return of the
current mean `v` after consuming `t` trials, `exhausted v t` is the
fall-through return of the last assigned running mean `v` after consuming
all `t` trials. The trial count is recorded so that claims about how many
trials were consumed can be stated; projecting it away recovers the Python
return value. -/
inductive MeanOutcome : Type where
  | noData : MeanOutcome
  | converged (val : ℚ) (trials : ℕ) : MeanOutcome
  | exhausted (val : ℚ) (trials : ℕ) : MeanOutcome
  deriving DecidableEq

/-- Loop body of `mean`, with the mutable state `sum`, `n`, `mean`
(here `m`) and `n_successes` made explicit. Each iteration adds the trial
`x` to `sum`, increments `n`, computes `cur_mean = sum / n` and the error
`|m - cur_mean|`; an error below `eps` increments the success counter and
returns `cur_mean` once it reaches `n_expected_successes`, otherwise the
counter resets to zero; in either continuing case `m` becomes `cur_mean`.
When the data runs out, `noData` is returned if `n = 0`, else the last
assigned `m`. -/
def mean_go (eps : ℚ) (n_expected_successes : ℕ) :
    List ℚ → ℚ → ℕ → ℚ → ℕ → MeanOutcome
  | [], _, n, m, _ => if n = 0 then .noData else .exhausted m n
  | x :: data, sum, n, m, n_successes =>
      let cur_mean := (sum + x) / (n + 1)
      let error := |m - cur_mean|
      if error < eps then
        if n_successes + 1 < n_expected_successes then
          mean_go eps n_expected_successes data (sum + x) (n + 1) cur_mean
            (n_successes + 1)
        else .converged cur_mean (n + 1)
      else mean_go eps n_expected_successes data (sum + x) (n + 1) cur_mean 0

/-- The estimator `mean(data, eps, n_expected_successes)` with all state
initialized to zero, as in the source (`n = 0`, `sum = 0`, `mean = 0`,
`n_successes = 0`); `none` models the `assert` failing. -/
def mean (data : List ℚ) (eps : ℚ) (n_expected_successes : ℕ) : Option ℚ :=
  match mean_go eps n_expected_successes data 0 0 0 0 with
  | .noData => none
  | .converged v _ => some v
  | .exhausted v _ => some v

/-- One trial of `run_strided_experiment.get_penalties`: materialize the
address list, run a model through `perform_accesses`, and yield
`penalty / len(addresses)`. A `ZeroDivisionError` on an empty address list
is `none`. -/
def trial_penalty (model : MemModel) (addresses : List ℕ) : Option ℚ :=
  let penalty := perform_accesses model addresses
  if addresses.length = 0 then none
  else some ((penalty : ℚ) / (addresses.length : ℚ))

/-- Loop of `generate_random_strided_addresses`: while the distinct-address
set is smaller than `n_addresses`, consume one `randrange(0, ARRAY_SIZE,
stride)` draw (modelled as `d % n_strided * stride` for a stream value
`d`), insert it into the set and append it to the result list; the result
list is what is returned. `none` models the stream running out before the
set fills (the Python loop would keep drawing). -/
def random_strided_loop (n_strided stride n_addresses : ℕ) :
    List ℕ → Finset ℕ → List ℕ → Option (List ℕ)
  | [], result_set, result =>
      if result_set.card < n_addresses then none else some result
  | d :: draws, result_set, result =>
      if result_set.card < n_addresses then
        random_strided_loop n_strided stride n_addresses draws
          (insert (d % n_strided * stride) result_set)
          (result ++ [d % n_strided * stride])
      else some result

/-- Function `generate_random_strided_addresses(stride)` parameterized by the stream
of random draws. `n_strided_addresses = len(range(0, ARRAY_SIZE, stride))`
is `⌈ARRAY_SIZE / stride⌉` and `n_addresses` is its minimum with
`MAX_ADDRESSES`. -/
def generate_random_strided_addresses (stride : ℕ) (draws : List ℕ) :
    Option (List ℕ) :=
  let n_strided_addresses := (ARRAY_SIZE + stride - 1) / stride
  let n_addresses := min MAX_ADDRESSES n_strided_addresses
  random_strided_loop n_strided_addresses stride n_addresses draws ∅ []

/-- Loop of `generate_directed_strided_addresses`, yielding from iteration
`i` for `count` remaining iterations: each iteration draws
`base_addr = randrange(0, ARRAY_SIZE, 2 * stride)` (modelled as
`draws i % n_base * (2 * stride)` where `n_base = ⌈ARRAY_SIZE / (2 * stride)⌉`)
and yields `base_addr` then `base_addr + stride`. -/
def directed_strided_from (stride n_base : ℕ) (draws : ℕ → ℕ) :
    ℕ → ℕ → List ℕ
  | _, 0 => []
  | i, count + 1 =>
      let base_addr := draws i % n_base * (2 * stride)
      base_addr :: (base_addr + stride) ::
        directed_strided_from stride n_base draws (i + 1) count

/-- Function `generate_directed_strided_addresses(stride)` parameterized by the
stream of random draws: `n_addresses = min(MAX_ADDRESSES // 2,
len(range(0, ARRAY_SIZE, stride)))` loop iterations, two yields each. -/
def generate_directed_strided_addresses (stride : ℕ) (draws : ℕ → ℕ) :
    List ℕ :=
  let n_strided_addresses := (ARRAY_SIZE + stride - 1) / stride
  let n_addresses := min (MAX_ADDRESSES / 2) n_strided_addresses
  directed_strided_from stride ((ARRAY_SIZE + 2 * stride - 1) / (2 * stride))
    draws 0 n_addresses

/-- A concrete random stream (all draws zero) used to instantiate the
generator theorems. -/
def zero_draws : ℕ → ℕ := fun _ => 0

/-
Helper lemmas about the cache-level state transition.
-/

/-- Admitting a line preserves the queue-set structural invariant, given the
constructor precondition `1 ≤ n_lines`. -/
lemma add_to_cache_inv (n_lines : ℕ) (queue : List ℕ) (set : Finset ℕ)
    (line_id : ℕ) (hn : 1 ≤ n_lines) (hlen : queue.length = set.card)
    (hcap : queue.length ≤ n_lines) (hnd : queue.Nodup)
    (hmem : ∀ x, x ∈ set ↔ x ∈ queue) :
    (add_to_cache n_lines queue set line_id).1.length =
        (add_to_cache n_lines queue set line_id).2.card ∧
      (add_to_cache n_lines queue set line_id).1.length ≤ n_lines ∧
      (add_to_cache n_lines queue set line_id).1.Nodup ∧
      ∀ x, x ∈ (add_to_cache n_lines queue set line_id).2 ↔
        x ∈ (add_to_cache n_lines queue set line_id).1 := by
  by_cases hin : line_id ∈ set
  · simpa [add_to_cache, hin] using ⟨hlen, hcap, hnd, hmem⟩
  · by_cases hfull : queue.length = n_lines
    · cases queue with
      | nil => exact absurd hfull (by simpa using by omega)
      | cons front rest =>
        have hfr : front ∈ set := (hmem front).2 (by simp)
        have hord : line_id ∉ rest := fun hr =>
          hin ((hmem line_id).2 (by simp [hr]))
        have hfront_rest : front ∉ rest := (List.nodup_cons.1 hnd).1
        have hrest_nd : rest.Nodup := (List.nodup_cons.1 hnd).2
        have hline_ne_front : line_id ≠ front := fun he =>
          hin (he ▸ hfr)
        simp only [add_to_cache, hin, if_false, hfull, if_true, if_pos rfl]
        refine ⟨?_, ?_, ?_, ?_⟩
        · have h1 : line_id ∉ set.erase front := fun hm =>
            hin (Finset.mem_of_mem_erase hm)
          simp [Finset.card_insert_of_not_mem h1,
            Finset.card_erase_of_mem hfr, ← hlen]
        · simp at hfull ⊢
          omega
        · simp [List.nodup_append, hrest_nd, hord]
        · intro x
          by_cases hx : x = line_id
          · simp [hx]
          · simp only [Finset.mem_insert, Finset.mem_erase, hmem x,
              List.mem_append, List.mem_singleton, hx, false_or, or_false]
            constructor
            · rintro ⟨hxf, hxq⟩
              simp only [List.mem_cons] at hxq
              exact hxq.resolve_left hxf
            · intro hr
              exact ⟨fun he => hfront_rest (he ▸ hr), by simp [hr]⟩
    · have hout : line_id ∉ queue := fun hq => hin ((hmem line_id).2 hq)
      simp only [add_to_cache, hin, if_false, hfull, if_true]
      refine ⟨?_, ?_, ?_, ?_⟩
      · simp [Finset.card_insert_of_not_mem (fun hm => hin hm), ← hlen]
      · simp only [List.length_append, List.length_singleton]
        omega
      · simp [List.nodup_append, hnd, hout]
      · intro x
        simp [Finset.mem_insert, hmem x, or_comm]

/-- One access preserves the structural invariant at every level of a
well-formed hierarchy. -/
lemma perform_access_cacheInv (m : MemModel) (hw : WFConfig m)
    (hi : CacheInv m) (a : ℕ) : CacheInv (perform_access m a) := by
  induction m generalizing a with
  | ram p t => trivial
  | cache nl ls hp q s tp next ih =>
      obtain ⟨hn, _, hwn⟩ := hw
      obtain ⟨h1, h2, h3, h4, hin⟩ := hi
      have hadd := add_to_cache_inv nl q s (a / ls) hn h1 h2 h3 h4
      simp only [perform_access, CacheInv]
      refine ⟨hadd.1, hadd.2.1, hadd.2.2.1, hadd.2.2.2, ?_⟩
      by_cases hmem : a / ls ∈ s
      · simpa [hmem] using hin
      · simpa [hmem] using ih hwn hin a

/-- One access leaves the configuration untouched (well-formedness is
preserved). -/
lemma perform_access_wf (m : MemModel) (hw : WFConfig m) (a : ℕ) :
    WFConfig (perform_access m a) := by
  induction m generalizing a with
  | ram p t => trivial
  | cache nl ls hp q s tp next ih =>
      obtain ⟨hn, hl, hwn⟩ := hw
      simp only [perform_access, WFConfig]
      refine ⟨hn, hl, ?_⟩
      by_cases hmem : a / ls ∈ s
      · simpa [hmem] using hwn
      · simpa [hmem] using ih hwn a

/-- Invariant and well-formedness are preserved along any access list. -/
lemma foldl_perform_access_cacheInv (addresses : List ℕ) :
    ∀ m : MemModel, WFConfig m → CacheInv m →
      CacheInv (List.foldl perform_access m addresses) ∧
        WFConfig (List.foldl perform_access m addresses) := by
  induction addresses with
  | nil => exact fun m hw hi => ⟨hi, hw⟩
  | cons a rest ih =>
      intro m hw hi
      exact ih (perform_access m a) (perform_access_wf m hw a)
        (perform_access_cacheInv m hw hi a)

/-
Helper lemmas for penalty accounting.
-/

/-- One access can only grow the root total, given nonnegative penalties. -/
lemma get_total_penalty_mono_step (m : MemModel) (hnn : NonnegPenalties m)
    (a : ℕ) : get_total_penalty m ≤ get_total_penalty (perform_access m a) := by
  induction m generalizing a with
  | ram p t =>
      have h : (0 : ℤ) ≤ p := hnn
      simp only [perform_access, get_total_penalty]
      omega
  | cache nl ls hp q s tp next ih =>
      obtain ⟨hhp, hnext⟩ := hnn
      by_cases hmem : a / ls ∈ s
      · simp only [perform_access, get_total_penalty, hmem, if_true]
        linarith
      · simp only [perform_access, get_total_penalty, hmem, if_false]
        have := ih hnext a
        linarith

/-- One access does not change penalty configuration. -/
lemma perform_access_nonneg (m : MemModel) (hnn : NonnegPenalties m) (a : ℕ) :
    NonnegPenalties (perform_access m a) := by
  induction m generalizing a with
  | ram p t => simpa [perform_access, NonnegPenalties] using hnn
  | cache nl ls hp q s tp next ih =>
      obtain ⟨hhp, hnext⟩ := hnn
      simp only [perform_access, NonnegPenalties]
      refine ⟨hhp, ?_⟩
      by_cases hmem : a / ls ∈ s
      · simpa [hmem] using hnext
      · simpa [hmem] using ih hnext a

/-- Penalty configuration is also untouched by whole access lists. -/
lemma foldl_perform_access_nonneg (addresses : List ℕ) :
    ∀ m : MemModel, NonnegPenalties m →
      NonnegPenalties (List.foldl perform_access m addresses) := by
  induction addresses with
  | nil => exact fun m hnn => hnn
  | cons a rest ih =>
      intro m hnn
      exact ih (perform_access m a) (perform_access_nonneg m hnn a)

/-- Running any tail of accesses cannot lower the root total. -/
lemma get_total_penalty_mono_foldl (addresses : List ℕ) :
    ∀ m : MemModel, NonnegPenalties m →
      get_total_penalty m ≤
        get_total_penalty (List.foldl perform_access m addresses) := by
  induction addresses with
  | nil => exact fun m _ => le_rfl
  | cons a rest ih =>
      intro m hnn
      exact le_trans (get_total_penalty_mono_step m hnn a)
        (ih (perform_access m a) (perform_access_nonneg m hnn a))

/-- A terminal store's state after an access list: the counter gains the
penalty once per access. -/
lemma foldl_perform_access_ram (addresses : List ℕ) :
    ∀ p t : ℤ, List.foldl perform_access (.ram p t) addresses =
      .ram p (t + addresses.length * p) := by
  induction addresses with
  | nil => intro p t; simp
  | cons a rest ih =>
      intro p t
      simp only [List.foldl_cons, perform_access, ih, List.length_cons]
      congr 1
      push_cast
      ring

/-
Claim theorems for the cache hierarchy.
-/

/-- C1: cache eviction is strict insertion-order FIFO. Admitting a resident
line is a no-op (the queue position is not refreshed); admitting a
non-resident line into a full level pops the front of the queue out of both
queue and set before appending the line to the back and inserting it into
the set; and with capacity 2 the access sequence `[A, B, A, C]` over
distinct lines evicts `A`, not `B`, leaving the queue `[B, C]`. -/
theorem c1_fifo_insertion_order :
    (∀ (n_lines : ℕ) (queue : List ℕ) (set : Finset ℕ) (line_id : ℕ),
        line_id ∈ set → add_to_cache n_lines queue set line_id = (queue, set)) ∧
    (∀ (n_lines front : ℕ) (rest : List ℕ) (set : Finset ℕ) (line_id : ℕ),
        line_id ∉ set → (front :: rest).length = n_lines →
        add_to_cache n_lines (front :: rest) set line_id =
          (rest ++ [line_id], insert line_id (set.erase front))) ∧
    (∀ A B C : ℕ, A ≠ B → A ≠ C → B ≠ C → ∀ r : MemModel,
        cached_queue
            (List.foldl perform_access (cache_init 2 1 0 r) [A, B, A, C]) =
          [B, C]) := by
  refine ⟨?_, ?_, ?_⟩
  · intro n_lines queue set line_id h
    simp [add_to_cache, h]
  · intro n_lines front rest set line_id h hlen
    simp [add_to_cache, h, hlen]
  · intro A B C hAB hAC hBC r
    simp [cache_init, perform_access, add_to_cache, cached_queue,
      Nat.div_one, hAB, hAC, hBC, Ne.symm hAB, Ne.symm hAC, Ne.symm hBC]

/-- C1 witness: concrete instances of all three parts. -/
theorem c1_fifo_insertion_order_witness :
    add_to_cache 2 [5] {5} 5 = ([5], {5}) ∧
    add_to_cache 1 [3] {3} 4 = ([4], insert 4 (Finset.erase {3} 3)) ∧
    cached_queue
        (List.foldl perform_access (cache_init 2 1 0 (.ram 100 0))
          [0, 1, 0, 2]) = [1, 2] :=
  ⟨c1_fifo_insertion_order.1 2 [5] {5} 5 (by decide),
    c1_fifo_insertion_order.2.1 1 3 [] {3} 4 (by decide) (by decide),
    c1_fifo_insertion_order.2.2 0 1 2 (by decide) (by decide) (by decide)
      (.ram 100 0)⟩

/-- C2: the queue-set structural invariants hold initially (a freshly
constructed level has an empty queue, empty set) and after every access
sequence on a well-formed hierarchy: queue length equals set cardinality,
both at most `n_lines`, the queue hosts no duplicate line ids and the set
is exactly the set of queue elements, at every cache level. -/
theorem c2_queue_set_invariants :
    (∀ (n_lines line_size : ℕ) (hit_penalty : ℤ) (next : MemModel),
        CacheInv next →
          CacheInv (cache_init n_lines line_size hit_penalty next)) ∧
    (∀ m : MemModel, WFConfig m → CacheInv m → ∀ addresses : List ℕ,
        CacheInv (List.foldl perform_access m addresses)) := by
  constructor
  · intro n_lines line_size hit_penalty next hnext
    simpa [cache_init, CacheInv] using hnext
  · intro m hw hi addresses
    exact (foldl_perform_access_cacheInv addresses m hw hi).1

/-- C2 witness: a concrete two-level hierarchy driven through two
accesses. -/
theorem c2_queue_set_invariants_witness :
    CacheInv
      (List.foldl perform_access (cache_init 1 1 1 (.ram 100 0)) [0, 1]) :=
  c2_queue_set_invariants.2 (cache_init 1 1 1 (.ram 100 0))
    (by simp [cache_init, WFConfig])
    (c2_queue_set_invariants.1 1 1 1 (.ram 100 0) trivial) [0, 1]

/-- C6: the end-to-end scenario. A cache level with one line of size one
and hit penalty one, over a terminal store with access penalty 100, fed
the address sequence `[0, 0, 1, 0]`, reports a root total of 301. -/
theorem c6_end_to_end_301 :
    perform_accesses (MemModel.cache 1 1 1 [] ∅ 0 (.ram 100 0))
      [0, 0, 1, 0] = 301 := by decide

/-- C7: the trial runner folds every address through the root level's
`perform_access`, reads the total penalty once at the end and divides by
the number of addresses; on an empty address sequence it fails (models the
ZeroDivisionError) instead of returning a value. -/
theorem c7_trial_runner (model : MemModel) (addresses : List ℕ)
    (h : addresses ≠ []) :
    trial_penalty model addresses =
        some ((get_total_penalty (List.foldl perform_access model addresses) :
          ℚ) / (addresses.length : ℚ)) ∧
      trial_penalty model [] = none := by
  constructor
  · simp [trial_penalty, perform_accesses, h]
  · simp [trial_penalty]

/-- C7 witness: one address through a bare terminal store yields penalty 7
per access, and the empty sequence fails. -/
theorem c7_trial_runner_witness :
    trial_penalty (.ram 7 0) [0] = some 7 ∧
      trial_penalty (.ram 7 0) [] = none := by
  have h := c7_trial_runner (.ram 7 0) [0] (by decide)
  refine ⟨?_, h.2⟩
  rw [h.1]
  norm_num [perform_access, get_total_penalty]

/-- C8: with every `hit_penalty` and the terminal `access_penalty`
nonnegative, the root total penalty is non-decreasing in the access
sequence (appending further accesses never lowers it), and a fresh terminal
store alone accumulates exactly `n * p` over `n` accesses with penalty
`p`. -/
theorem c8_monotone_and_ram_exact :
    (∀ m : MemModel, NonnegPenalties m → ∀ l1 l2 : List ℕ,
        perform_accesses m l1 ≤ perform_accesses m (l1 ++ l2)) ∧
    (∀ p : ℤ, 0 ≤ p → ∀ addresses : List ℕ,
        perform_accesses (.ram p 0) addresses = addresses.length * p) := by
  constructor
  · intro m hnn l1 l2
    unfold perform_accesses
    rw [List.foldl_append]
    exact get_total_penalty_mono_foldl l2 (List.foldl perform_access m l1)
      ((foldl_perform_access_nonneg l1 m hnn))
  · intro p _ addresses
    simp [perform_accesses, foldl_perform_access_ram, get_total_penalty]

/-
Helper lemmas for the convergence estimator.
-/

/-- Once at least one trial has been consumed, the estimator can no longer
fail with `noData`. -/
lemma mean_go_ne_noData (eps : ℚ) (nExp : ℕ) :
    ∀ (data : List ℚ) (sum : ℚ) (n : ℕ) (m : ℚ) (s : ℕ), n ≠ 0 →
      mean_go eps nExp data sum n m s ≠ .noData := by
  intro data
  induction data with
  | nil =>
      intro sum n m s hn
      simp [mean_go, hn]
  | cons x rest ih =>
      intro sum n m s hn
      simp only [mean_go]
      split
      · split
        · exact ih _ _ _ _ (Nat.succ_ne_zero n)
        · simp
      · exact ih _ _ _ _ (Nat.succ_ne_zero n)

/-- If the loop falls through (`exhausted`), the returned value is the
running mean of everything consumed — the loop state always keeps
`m = sum / n` — and the trial count is the whole stream. -/
lemma mean_go_exhausted_val (eps : ℚ) (nExp : ℕ) :
    ∀ (data : List ℚ) (sum : ℚ) (n : ℕ) (m : ℚ) (s : ℕ),
      m = sum / (n : ℚ) → ∀ v t,
        mean_go eps nExp data sum n m s = .exhausted v t →
          v = (sum + data.sum) / ((n : ℚ) + (data.length : ℚ)) ∧
            t = n + data.length := by
  intro data
  induction data with
  | nil =>
      intro sum n m s hm v t h
      simp only [mean_go] at h
      split at h
      · exact absurd h (by simp)
      · simp only [MeanOutcome.exhausted.injEq] at h
        refine ⟨?_, by simpa using h.2.symm⟩
        rw [← h.1, hm]
        simp
  | cons x rest ih =>
      intro sum n m s hm v t h
      simp only [mean_go] at h
      have hstep : ((sum + x) / ((n : ℚ) + 1) : ℚ) =
          (sum + x) / (((n + 1 : ℕ) : ℚ)) := by push_cast; ring_nf
      split at h
      · split at h
        · have := ih (sum + x) (n + 1) _ _ (by push_cast; ring_nf) v t h
          refine ⟨?_, by simp only [List.length_cons]; omega⟩
          rw [this.1]
          simp only [List.sum_cons, List.length_cons]
          push_cast
          ring_nf
        · exact absurd h (by simp)
      · have := ih (sum + x) (n + 1) _ _ (by push_cast; ring_nf) v t h
        refine ⟨?_, by simp only [List.length_cons]; omega⟩
        rw [this.1]
        simp only [List.sum_cons, List.length_cons]
        push_cast
        ring_nf

/-- Early return happens only after the success counter, which rises by at
most one per consumed trial, has climbed from `s` to the threshold. -/
lemma mean_go_converged_trials (eps : ℚ) (nExp : ℕ) :
    ∀ (data : List ℚ) (sum : ℚ) (n : ℕ) (m : ℚ) (s : ℕ) (v : ℚ) (t : ℕ),
      mean_go eps nExp data sum n m s = .converged v t →
        n + (nExp - s) ≤ t := by
  intro data
  induction data with
  | nil =>
      intro sum n m s v t h
      simp only [mean_go] at h
      split at h <;> simp at h
  | cons x rest ih =>
      intro sum n m s v t h
      simp only [mean_go] at h
      split at h
      · split at h
        · have := ih _ _ _ _ v t h
          rename_i hcond
          omega
        · simp only [MeanOutcome.converged.injEq] at h
          rename_i hcond
          omega
      · have := ih _ _ _ _ v t h
        omega

/-- On a constant-7 stream, once one trial is in (`sum = 7 * n`, baseline
`m = 7`), every further trial is a success and the loop converges to 7
after exactly `nExp - s` more trials. -/
lemma mean_go_const_seven (eps : ℚ) (heps : 0 < eps) (nExp : ℕ) :
    ∀ (k s n : ℕ), s < nExp → nExp - s ≤ k → 1 ≤ n →
      mean_go eps nExp (List.replicate k (7 : ℚ)) (7 * (n : ℚ)) n 7 s =
        .converged 7 (n + (nExp - s)) := by
  intro k
  induction k with
  | zero => intro s n hs hk _; omega
  | succ k ih =>
      intro s n hs hk hn
      rw [List.replicate_succ]
      simp only [mean_go]
      have hne : ((n : ℚ) + 1) ≠ 0 := by positivity
      have hcur : (7 * (n : ℚ) + 7) / ((n : ℚ) + 1) = 7 := by
        field_simp
        ring
      rw [hcur]
      simp only [sub_self, abs_zero, if_pos heps]
      by_cases hlast : s + 1 < nExp
      · rw [if_pos hlast]
        have h7 : (7 * (n : ℚ) + 7) = 7 * ((n + 1 : ℕ) : ℚ) := by
          push_cast; ring
        rw [h7, ih (s + 1) (n + 1) hlast (by omega) (by omega)]
        congr 1
        omega
      · rw [if_neg hlast]
        congr 1
        omega

/-- C4 counterexample: at `eps = 1` and threshold 3 the constant-7 stream
does not converge within 3 trials. Exactly 3 trials end in the exhausted
fallback (no short-circuit happened), and convergence arrives only at
trial 4. -/
theorem c4_counterexample :
    mean_go 1 3 [7, 7, 7] 0 0 0 0 = .exhausted 7 3 ∧
      mean_go 1 3 [7, 7, 7, 7] 0 0 0 0 = .converged 7 4 ∧ ¬(4 ≤ 3) := by
  refine ⟨by norm_num [mean_go], by norm_num [mean_go], by norm_num⟩

/-- C4 as amended: on a constant-7 stream the estimator converges to and
returns exactly 7, within the required-success threshold PLUS ONE trials
(the first trial is compared against the zero-initialized baseline, whose
error is 7 and may exceed `eps`). -/
theorem c4_constant_seven_converges (eps : ℚ) (n_expected_successes k : ℕ)
    (heps : 0 < eps) (hn : 1 ≤ n_expected_successes)
    (hk : n_expected_successes + 1 ≤ k) :
    ∃ t ≤ n_expected_successes + 1,
      mean_go eps n_expected_successes (List.replicate k (7 : ℚ)) 0 0 0 0 =
        .converged 7 t ∧
      mean (List.replicate k (7 : ℚ)) eps n_expected_successes = some 7 := by
  obtain ⟨k', rfl⟩ : ∃ k', k = k' + 1 := ⟨k - 1, by omega⟩
  rw [List.replicate_succ]
  simp only [mean, mean_go]
  have hcur : ((0 : ℚ) + 7) / ((0 : ℕ) + 1 : ℚ) = 7 := by norm_num
  have herr : |(0 : ℚ) - ((0 : ℚ) + 7) / ((0 : ℕ) + 1 : ℚ)| = 7 := by norm_num
  rcases le_or_lt eps 7 with h7 | h7
  · rw [if_neg (by rw [herr]; exact not_lt.2 h7)]
    rw [show ((0 : ℚ) + 7) = 7 * ((1 : ℕ) : ℚ) by norm_num] at hcur ⊢
    rw [hcur, mean_go_const_seven eps heps n_expected_successes k' 0 1
      (by omega) (by omega) le_rfl]
    exact ⟨1 + n_expected_successes, by omega, rfl, rfl⟩
  · rw [if_pos (by rw [herr]; exact h7)]
    by_cases hone : 0 + 1 < n_expected_successes
    · rw [if_pos hone]
      rw [show ((0 : ℚ) + 7) = 7 * ((1 : ℕ) : ℚ) by norm_num] at hcur ⊢
      rw [hcur, mean_go_const_seven eps heps n_expected_successes k' 1 1
        (by omega) (by omega) le_rfl]
      exact ⟨1 + (n_expected_successes - 1), by omega, rfl, rfl⟩
    · rw [if_neg hone, hcur]
      exact ⟨0 + 1, by omega, rfl, rfl⟩

/-- C4 witness: the amended bound at `eps = 1`, threshold 3, four trials. -/
theorem c4_constant_seven_converges_witness :
    mean (List.replicate 4 (7 : ℚ)) 1 3 = some 7 := by
  obtain ⟨t, _, _, hm⟩ :=
    c4_constant_seven_converges 1 3 4 (by norm_num) (by norm_num) (by norm_num)
  exact hm

/-- C5: when the stream runs out without the success counter reaching the
threshold, the estimator returns the running mean over every trial seen
(sum of the data over its length), consuming the whole stream, rather than
failing; and it fails with `noData` exactly when the stream yielded zero
trials. -/
theorem c5_exhausted_fallback (eps : ℚ) (n_expected_successes : ℕ)
    (data : List ℚ) :
    (mean_go eps n_expected_successes data 0 0 0 0 = .noData ↔ data = []) ∧
      ∀ v t, mean_go eps n_expected_successes data 0 0 0 0 = .exhausted v t →
        v = data.sum / (data.length : ℚ) ∧ t = data.length := by
  constructor
  · constructor
    · intro h
      by_contra hne
      obtain ⟨x, rest, rfl⟩ := List.exists_cons_of_ne_nil hne
      revert h
      simp only [mean_go]
      split
      · split
        · exact mean_go_ne_noData eps n_expected_successes rest _ _ _ _
            (Nat.succ_ne_zero 0)
        · simp
      · exact mean_go_ne_noData eps n_expected_successes rest _ _ _ _
          (Nat.succ_ne_zero 0)
    · rintro rfl
      simp [mean_go]
  · intro v t h
    have := mean_go_exhausted_val eps n_expected_successes data 0 0 0 0
      (by norm_num) v t h
    simpa using this

/-- C5 witness: `eps = 1/2` over the stream `[1, 100]` never succeeds, so
the run exhausts at the full running mean `101/2`, while the empty stream
is the `noData` failure. -/
theorem c5_exhausted_fallback_witness :
    ((101 : ℚ) / 2 = ([(1 : ℚ), 100].sum) / (([(1 : ℚ), 100].length : ℕ) : ℚ) ∧
        (2 : ℕ) = [(1 : ℚ), 100].length) ∧
      (mean_go (1 / 2) 3 ([] : List ℚ) 0 0 0 0 = .noData) :=
  ⟨(c5_exhausted_fallback (1 / 2) 3 [1, 100]).2 (101 / 2) 2
      (by norm_num [mean_go, abs]),
    (c5_exhausted_fallback (1 / 2) 3 []).1.2 rfl⟩

/-- C10: the previous-mean baseline starts at 0, so the first trial `x` is
compared against 0. If `|x| < eps` it is an immediate consecutive success
(the loop continues with success counter 1, or converges outright when the
threshold is 1); if `|x| ≥ eps`, convergence can never happen in fewer
than `n_expected_successes + 1` trials. -/
theorem c10_zero_baseline (eps : ℚ) (n_expected_successes : ℕ) (x : ℚ)
    (data : List ℚ) :
    (|x| < eps → 2 ≤ n_expected_successes →
        mean_go eps n_expected_successes (x :: data) 0 0 0 0 =
          mean_go eps n_expected_successes data x 1 x 1) ∧
      (|x| < eps → n_expected_successes = 1 →
        mean_go eps n_expected_successes (x :: data) 0 0 0 0 =
          .converged x 1) ∧
      (eps ≤ |x| →
        ∀ v t, mean_go eps n_expected_successes (x :: data) 0 0 0 0 =
          .converged v t → n_expected_successes + 1 ≤ t) := by
  have hcur : ((0 : ℚ) + x) / ((0 : ℕ) + 1 : ℚ) = x := by norm_num
  have herr : |(0 : ℚ) - ((0 : ℚ) + x) / ((0 : ℕ) + 1 : ℚ)| = |x| := by
    rw [hcur]; simp
  refine ⟨?_, ?_, ?_⟩
  · intro hlt hn
    simp only [mean_go]
    rw [if_pos (herr ▸ hlt), if_pos (by omega), hcur]
    norm_num
  · intro hlt hn
    simp only [mean_go]
    rw [if_pos (herr ▸ hlt), if_neg (by omega), hcur]
  · intro hge v t h
    simp only [mean_go] at h
    rw [if_neg (by rw [herr]; exact not_lt.2 hge)] at h
    have := mean_go_converged_trials eps n_expected_successes data
      (0 + x) (0 + 1) _ 0 v t h
    omega

/-- C10 witness: with `eps = 1`, a first trial of 0 converges immediately at
threshold 1, and a first trial of 7 with threshold 3 converges only at
trial 4 which satisfies the `threshold + 1` lower bound. -/
theorem c10_zero_baseline_witness :
    mean_go 1 1 [(0 : ℚ)] 0 0 0 0 = .converged 0 1 ∧ (3 + 1 : ℕ) ≤ 4 :=
  ⟨(c10_zero_baseline 1 1 0 []).2.1 (by norm_num) rfl,
    (c10_zero_baseline 1 3 7 [7, 7, 7]).2.2 (by norm_num) 7 4
      (by norm_num [mean_go])⟩

/-
Helper lemmas for the address generators.
-/

/-- Positions strictly below `len(range(0, A, s)) = ⌈A / s⌉` scale to
addresses strictly below `A`. -/
lemma mul_lt_of_lt_ceil_div (A s k : ℕ) (hA : 1 ≤ A) (hs : 1 ≤ s)
    (hk : k < (A + s - 1) / s) : k * s < A := by
  have h2 : (k + 1) * s ≤ A + s - 1 :=
    (Nat.le_div_iff_mul_le (by omega)).1 hk
  have h3 : k * s + s ≤ A + s - 1 := by
    rwa [Nat.succ_mul] at h2
  omega

/-- The strided range `range(0, A, s)` is nonempty for positive `A`. -/
lemma one_le_ceil_div (A s : ℕ) (hA : 1 ≤ A) (hs : 1 ≤ s) :
    1 ≤ (A + s - 1) / s := by
  rw [Nat.le_div_iff_mul_le (by omega)]
  omega

/-- Invariant of the random-strided sampling loop: the tracking set is the
set of list elements, so when the loop exits normally the result holds
exactly `n_addresses` distinct values, each produced by some draw. -/
lemma random_strided_loop_spec (n_strided stride n_addresses : ℕ)
    (hns : 1 ≤ n_strided) :
    ∀ (draws result res : List ℕ),
      random_strided_loop n_strided stride n_addresses draws
          result.toFinset result = some res →
        result.toFinset.card ≤ n_addresses →
        (∀ a ∈ res, a ∈ result ∨ ∃ k, k < n_strided ∧ a = k * stride) ∧
          res.toFinset.card = n_addresses := by
  intro draws
  induction draws with
  | nil =>
      intro result res h hcard
      simp only [random_strided_loop] at h
      split at h
      · exact absurd h (by simp)
      · obtain rfl : result = res := by simpa using h
        exact ⟨fun a ha => Or.inl ha, by omega⟩
  | cons d rest ih =>
      intro result res h hcard
      simp only [random_strided_loop] at h
      split at h
      · rename_i hlt
        rw [show insert (d % n_strided * stride) result.toFinset =
            (result ++ [d % n_strided * stride]).toFinset by
          simp [Finset.insert_eq, Finset.union_comm]] at h
        have hcard2 : (result ++ [d % n_strided * stride]).toFinset.card ≤
            n_addresses := by
          simp only [List.toFinset_append, List.toFinset_cons,
            List.toFinset_nil, insert_emptyc_eq]
          calc (result.toFinset ∪ {d % n_strided * stride}).card
              ≤ result.toFinset.card + ({d % n_strided * stride} :
                Finset ℕ).card := Finset.card_union_le _ _
            _ ≤ n_addresses := by simp; omega
        obtain ⟨hmem, hcardres⟩ := ih _ res h hcard2
        refine ⟨fun a ha => ?_, hcardres⟩
        rcases hmem a ha with hin | hk
        · rcases List.mem_append.1 hin with h1 | h1
          · exact Or.inl h1
          · refine Or.inr ⟨d % n_strided, Nat.mod_lt d (by omega), ?_⟩
            simpa using h1
        · exact Or.inr hk
      · obtain rfl : result = res := by simpa using h
        exact ⟨fun a ha => Or.inl ha, by omega⟩

/-- Every tail of the directed-strided output is the output restarted at a
later loop index. -/
lemma directed_strided_from_drop (stride n_base : ℕ) (draws : ℕ → ℕ) :
    ∀ (i count j : ℕ), i ≤ count →
      (directed_strided_from stride n_base draws j count).drop (2 * i) =
        directed_strided_from stride n_base draws (j + i) (count - i) := by
  intro i
  induction i with
  | zero => intro count j _; simp
  | succ i ih =>
      intro count j hi
      cases count with
      | zero => omega
      | succ c =>
          have h2 : 2 * (i + 1) = 2 * i + 1 + 1 := by ring
          simp only [directed_strided_from, h2, List.drop_succ_cons]
          rw [ih c (j + 1) (by omega)]
          congr 1 <;> omega

/-- The directed-strided output has two addresses per loop iteration. -/
lemma directed_strided_from_length (stride n_base : ℕ) (draws : ℕ → ℕ) :
    ∀ (count i : ℕ),
      (directed_strided_from stride n_base draws i count).length =
        2 * count := by
  intro count
  induction count with
  | zero => intro i; simp [directed_strided_from]
  | succ c ih =>
      intro i
      simp only [directed_strided_from, List.length_cons, ih]
      ring

/-- C3 counterexample: at `stride = 2^30` only two strided positions exist
below `ARRAY_SIZE`, so the capped count is 2; yet the draw stream
`[0, 0, 1]` makes the loop return `[0, 0, 2^30]`, which has a duplicate
address and is longer than the capped count. -/
theorem c3_counterexample :
    generate_random_strided_addresses (2 ^ 30) [0, 0, 1] =
        some [0, 0, 2 ^ 30] ∧
      ¬ ([0, 0, 2 ^ 30] : List ℕ).Nodup ∧
      ([0, 0, 2 ^ 30] : List ℕ).length ≠
        min MAX_ADDRESSES ((ARRAY_SIZE + 2 ^ 30 - 1) / 2 ^ 30) := by
  refine ⟨by decide, by decide, ?_⟩
  norm_num [ARRAY_SIZE, GB, MB, KB, MAX_ADDRESSES]

/-- C3 as amended: whenever the random-strided generator terminates, every
returned address is a multiple of `stride` below `ARRAY_SIZE`, and the
number of DISTINCT returned addresses is exactly the smaller of
`MAX_ADDRESSES` and the available strided positions — but the sequence is
drawn with replacement, so it may repeat addresses and its length is only
bounded below by that count. -/
theorem c3_random_strided (stride : ℕ) (hs : 1 ≤ stride) (draws res : List ℕ)
    (h : generate_random_strided_addresses stride draws = some res) :
    (∀ a ∈ res, stride ∣ a ∧ a < ARRAY_SIZE) ∧
      res.toFinset.card =
        min MAX_ADDRESSES ((ARRAY_SIZE + stride - 1) / stride) ∧
      min MAX_ADDRESSES ((ARRAY_SIZE + stride - 1) / stride) ≤ res.length := by
  have hA : 1 ≤ ARRAY_SIZE := by norm_num [ARRAY_SIZE, GB, MB, KB]
  have hns : 1 ≤ (ARRAY_SIZE + stride - 1) / stride := one_le_ceil_div _ _ hA hs
  rw [generate_random_strided_addresses,
    show (∅ : Finset ℕ) = ([] : List ℕ).toFinset by simp] at h
  obtain ⟨hmem, hcard⟩ := random_strided_loop_spec _ stride _ hns draws [] res
    h (by simp)
  refine ⟨fun a ha => ?_, hcard, le_trans (le_of_eq hcard.symm)
    res.toFinset_card_le⟩
  rcases hmem a ha with hin | ⟨k, hk, rfl⟩
  · simp at hin
  · exact ⟨dvd_mul_left stride k, mul_lt_of_lt_ceil_div _ _ _ hA hs hk⟩

/-- C3 witness: the amended statement evaluated on the counterexample run
at `stride = 2^30` with draws `[0, 0, 1]`. -/
theorem c3_random_strided_witness :
    ([0, 0, 2 ^ 30] : List ℕ).toFinset.card =
        min MAX_ADDRESSES ((ARRAY_SIZE + 2 ^ 30 - 1) / 2 ^ 30) ∧
      min MAX_ADDRESSES ((ARRAY_SIZE + 2 ^ 30 - 1) / 2 ^ 30) ≤
        ([0, 0, 2 ^ 30] : List ℕ).length :=
  ⟨(c3_random_strided (2 ^ 30) (by norm_num) [0, 0, 1] [0, 0, 2 ^ 30]
      (by decide)).2.1,
    (c3_random_strided (2 ^ 30) (by norm_num) [0, 0, 1] [0, 0, 2 ^ 30]
      (by decide)).2.2⟩

/-- C9: for every positive stride, the directed-strided generator yields
exactly twice its loop count of addresses, the loop count being the
smaller of half the global cap and the number of strided positions, and
the output is consecutive pairs: at every even offset sits some base
aligned to `2 * stride` below `ARRAY_SIZE`, immediately followed by
`base + stride`. -/
theorem c9_directed_strided (stride : ℕ) (hs : 1 ≤ stride) (draws : ℕ → ℕ) :
    (generate_directed_strided_addresses stride draws).length =
        2 * min (MAX_ADDRESSES / 2) ((ARRAY_SIZE + stride - 1) / stride) ∧
      ∀ i < min (MAX_ADDRESSES / 2) ((ARRAY_SIZE + stride - 1) / stride),
        ∃ b, b % (2 * stride) = 0 ∧ b < ARRAY_SIZE ∧
          ((generate_directed_strided_addresses stride draws).drop
              (2 * i)).take 2 = [b, b + stride] := by
  have hA : 1 ≤ ARRAY_SIZE := by norm_num [ARRAY_SIZE, GB, MB, KB]
  have hnb : 1 ≤ (ARRAY_SIZE + 2 * stride - 1) / (2 * stride) :=
    one_le_ceil_div _ _ hA (by omega)
  constructor
  · exact directed_strided_from_length _ _ _ _ _
  · intro i hi
    rw [generate_directed_strided_addresses, directed_strided_from_drop _ _ _
      i _ 0 (le_of_lt hi)]
    rcases Nat.exists_eq_add_of_lt hi with ⟨c, hc⟩
    rw [show min (MAX_ADDRESSES / 2) ((ARRAY_SIZE + stride - 1) / stride) - i
        = c + 1 by omega]
    refine ⟨draws (0 + i) % ((ARRAY_SIZE + 2 * stride - 1) / (2 * stride)) *
      (2 * stride), Nat.mul_mod_left _ _, ?_, by
        simp [directed_strided_from]⟩
    exact mul_lt_of_lt_ceil_div _ _ _ hA (by omega)
      (Nat.mod_lt _ (by omega))

/-- C9 witness: at `stride = 2^30` the loop count is 2, so the all-zero
draw stream yields four addresses. -/
theorem c9_directed_strided_witness :
    (generate_directed_strided_addresses (2 ^ 30) zero_draws).length =
      2 * min (MAX_ADDRESSES / 2) ((ARRAY_SIZE + 2 ^ 30 - 1) / 2 ^ 30) :=
  (c9_directed_strided (2 ^ 30) (by norm_num) zero_draws).1

/-- C8 witness: concrete monotonicity and exactness instances. -/
theorem c8_monotone_and_ram_exact_witness :
    perform_accesses (.ram 1 0) [0] ≤ perform_accesses (.ram 1 0) ([0] ++ [0]) ∧
      perform_accesses (.ram 2 0) [0, 0, 0] = ([0, 0, 0] : List ℕ).length * 2 :=
  ⟨c8_monotone_and_ram_exact.1 (.ram 1 0) (by norm_num [NonnegPenalties])
      [0] [0],
    c8_monotone_and_ram_exact.2 2 (by norm_num) [0, 0, 0]⟩
